import Mathlib

/-!
Shallow embedding of the retrieval engine in app/retrieval.py
(knowledge-base loading, chunking, lazy TF-IDF index construction and
top-3 cosine-similarity retrieval), together with proofs settling the
specification claims about it.

Conventions of the embedding:
- Python strings are lists of characters (List Char) at the chunker level
  and Lean Strings at the engine level.
- Python ints are Lean Ints where values can go negative (chunk offsets),
  Nats where the source guarantees non-negativity (sizes).
- The while-loop of chunk_document is translated with explicit fuel; the
  outcome type ChunkRes distinguishes normal return, an IndexError raised
  by an out-of-range character access, and fuel exhaustion (so that
  non-termination of the source loop is expressible as: every fuel
  amount is exhausted).
- The third-party library calls (sklearn TfidfVectorizer.fit_transform /
  .transform, cosine_similarity) are abstracted as a record of functions
  that may fail (Except), since their internals are not part of this
  repository; the numpy argsort-based top-3 selection, which is the
  ranking logic of retrieve itself, is embedded concretely with argsort
  modelled as the stable ascending sort by (value, index).
-/

/-- Python str whitespace characters (the ASCII ones str.strip removes). -/
def isPySpace (c : Char) : Bool :=
  c = ' ' || c = '\t' || c = '\n' || c = '\r' || c = '\x0b' || c = '\x0c'

/-- Python str.strip(): drop leading and trailing whitespace. -/
def pyStrip (s : List Char) : List Char :=
  ((s.dropWhile isPySpace).reverse.dropWhile isPySpace).reverse

/-- Python single-character indexing text[i]: negative indices wrap once
from the end; an index out of [-len, len) raises IndexError (none). -/
def pyGet (s : List Char) (i : Int) : Option Char :=
  let j : Int := if i < 0 then (s.length : Int) + i else i
  if 0 ≤ j then s.get? j.toNat else none

/-- Normalize one slice endpoint the way Python text[i:j] does:
negative endpoints count from the end, everything is clamped to [0, len]. -/
def pySliceIdx (len : Nat) (i : Int) : Nat :=
  if i < 0 then ((len : Int) + i).toNat else min i.toNat len

/-- Python slicing text[i:j] (step 1): clamped, never raises. -/
def pySlice (s : List Char) (i j : Int) : List Char :=
  (s.take (pySliceIdx s.length j)).drop (pySliceIdx s.length i)

/-- The first n values of a, a-1, a-2, ... (helper for rangeDown). -/
def rangeDownAux (a : Int) : Nat → List Int
  | 0 => []
  | n + 1 => a :: rangeDownAux (a - 1) n

/-- Python range(a, b, -1): the descending values a, a-1, ..., b+1. -/
def rangeDown (a b : Int) : List Int :=
  rangeDownAux a (a - b).toNat

/-- Membership of the characters scanned for by chunk_document:
Python test text[i] in '.!?\n'. -/
def isBoundaryChar (c : Char) : Bool :=
  c = '.' || c = '!' || c = '?' || c = '\n'

/-- The backward boundary scan of chunk_document:
for i in range(end, stop, -1): if text[i] in '.!?\n': break.
Returns none on IndexError, some none when no boundary character is
found, and some (some i) for the first (largest) boundary position i. -/
def findBreak (text : List Char) : List Int → Option (Option Int)
  | [] => some none
  | i :: rest =>
    match pyGet text i with
    | none => none
    | some c => if isBoundaryChar c then some (some i) else findBreak text rest

/-- One iteration of the while-loop body of chunk_document: from the
current start offset compute the (boundary-adjusted) end, the emitted
stripped chunk and the next start end - overlap. The scan runs only
under the guard end < len(text), scanning from end itself down to
max(start + chunk_size // 2, end - 100) exclusive; on a hit at i the end
becomes i + 1. none models an IndexError escaping from the scan. -/
def chunkStep (text : List Char) (csize olap : Nat) (start : Int) :
    Option (List Char × Int) :=
  match (if start + (csize : Int) < (text.length : Int) then
          findBreak text (rangeDown (start + (csize : Int))
            (max (start + ((csize / 2 : Nat) : Int)) (start + (csize : Int) - 100)))
         else some none) with
  | none => none
  | some (some i) =>
    some (pyStrip (pySlice text start (i + 1)), i + 1 - (olap : Int))
  | some none =>
    some (pyStrip (pySlice text start (start + (csize : Int))),
      start + (csize : Int) - (olap : Int))

/-- Outcome of running chunk_document's loop with a fuel bound. -/
inductive ChunkRes where
  | done (chunks : List (List Char))
  | crash
  | fuelOut
deriving DecidableEq, Repr

/-- The while-loop of chunk_document, fuel-indexed.
Python:  while start < len(text): end = ...; chunk = text[start:end].strip();
if chunk: chunks.append(chunk); start = end - overlap;
if start >= len(text): break. -/
def chunkAux (text : List Char) (csize olap : Nat) :
    Nat → Int → List (List Char) → ChunkRes
  | 0, start, acc =>
    if start < (text.length : Int) then ChunkRes.fuelOut else ChunkRes.done acc
  | f + 1, start, acc =>
    if start < (text.length : Int) then
      match chunkStep text csize olap start with
      | none => ChunkRes.crash
      | some (chunk, next) =>
        chunkAux text csize olap f next (if chunk.isEmpty then acc else acc ++ [chunk])
    else ChunkRes.done acc

/-- chunk_document(text, chunk_size, overlap): the fast path returns the
whole (untrimmed) text as a single chunk when it fits in one chunk,
otherwise the loop runs (with the given fuel bound in this embedding). -/
def chunk_document (text : List Char) (csize olap : Nat) (fuel : Nat) : ChunkRes :=
  if text.length ≤ csize then ChunkRes.done [text]
  else chunkAux text csize olap fuel 0 []

/-- The source loop diverges on this input: every fuel amount runs out. -/
def chunkDocDiverges (text : List Char) (csize olap : Nat) : Prop :=
  ∀ fuel, chunk_document text csize olap fuel = ChunkRes.fuelOut

/-! ## Top-3 selection of retrieve

similarities.argsort()[-3:][::-1], then the append loop that keeps only
strictly positive scores and builds {"source_id": ..., "excerpt": ...}
dicts. numpy argsort is modelled as the stable ascending argsort, i.e.
the unique permutation of the index range sorted by (value, index). -/

/-- Ordering on positions used by the stable ascending argsort: position i
precedes position j when its score is smaller, or on equal scores when
i is the earlier position. -/
def simLE (sims : List ℚ) (i j : Nat) : Prop :=
  sims.getD i 0 < sims.getD j 0 ∨ (sims.getD i 0 = sims.getD j 0 ∧ i ≤ j)

instance (sims : List ℚ) : DecidableRel (simLE sims) :=
  fun _ _ => inferInstanceAs (Decidable (_ ∨ _))

instance (sims : List ℚ) : IsTotal Nat (simLE sims) where
  total i j := by
    rcases lt_trichotomy (sims.getD i 0) (sims.getD j 0) with h | h | h
    · exact Or.inl (Or.inl h)
    · rcases Nat.le_total i j with hij | hij
      · exact Or.inl (Or.inr ⟨h, hij⟩)
      · exact Or.inr (Or.inr ⟨h.symm, hij⟩)
    · exact Or.inr (Or.inl h)

instance (sims : List ℚ) : IsTrans Nat (simLE sims) where
  trans i j k hij hjk := by
    rcases hij with h1 | ⟨h1, h1n⟩ <;> rcases hjk with h2 | ⟨h2, h2n⟩
    · exact Or.inl (h1.trans h2)
    · exact Or.inl (h2 ▸ h1)
    · exact Or.inl (h1 ▸ h2)
    · exact Or.inr ⟨h1.trans h2, h1n.trans h2n⟩

/-- similarities.argsort(): indices 0..n-1 sorted ascending by score,
ties by index (stable). -/
def argsortAsc (sims : List ℚ) : List Nat :=
  List.insertionSort (simLE sims) (List.range sims.length)

/-- Python l[-k:]: the last min(k, len) elements. -/
def lastK (k : Nat) (l : List α) : List α :=
  l.drop (l.length - k)

/-- top_indices = similarities.argsort()[-3:][::-1]. -/
def topIndices (sims : List ℚ) : List Nat :=
  (lastK 3 (argsortAsc sims)).reverse

/-- The indices of top_indices that survive the similarity_score > 0
filter of the result loop. -/
def keptIndices (sims : List ℚ) : List Nat :=
  (topIndices sims).filter (fun idx => decide (0 < sims.getD idx 0))

/-- One result dict: {"source_id": sid, "excerpt": exc} (note: no score
entry - the code drops the score). -/
def mkResult (sid exc : String) : List (String × String) :=
  [("source_id", sid), ("excerpt", exc)]

/-- The result-building loop of retrieve: over top_indices in order, keep
positive-score entries, emitting {"source_id": _source_ids[idx],
"excerpt": _snippets[idx]}. -/
def buildResults (sims : List ℚ) (ids : List String) (snips : List String) :
    List (List (String × String)) :=
  (keptIndices sims).map (fun idx => mkResult (ids.getD idx "") (snips.getD idx ""))

/-! ## Engine state and control flow

The module-level globals of retrieval.py and the functions build_index,
ensure_index, retrieve. The sklearn vectorizer and similarity routines
are abstracted as a library record whose operations may fail; V is the
type of (fitted or fresh) vectorizer objects, M the type of matrix rows,
Q the type of transformed query vectors. The loader's output (the list
of (source_id, text) document pairs) is a parameter, standing for the
contents of the knowledge-base directory. -/

/-- The four module-level globals: _vectorizer, _snippets, _source_ids,
_tfidf_matrix (each None before first build). -/
structure EngineState (V M : Type) where
  vectorizer : Option V
  snippets : Option (List String)
  sourceIds : Option (List String)
  tfidfMatrix : Option (List M)
deriving DecidableEq

/-- The third-party surface used by retrieval.py: TfidfVectorizer()
construction, fit_transform, transform and cosine_similarity. Each
callable operation may raise (Except.error). -/
structure SkLib (V M Q : Type) where
  newVectorizer : V
  fitTransform : List String → Except Unit (V × List M)
  transform : V → String → Except Unit Q
  cosineSim : Q → List M → Except Unit (List ℚ)

/-- The chunks of one document as produced inside build_index:
chunk_document with the default chunk_size=500, overlap=100. The fuel
text.length + 1 is sufficient for the default configuration (proved
below: the loop advances start by at least one per iteration), so the
fallback arms are unreachable. -/
def chunksOf (text : String) : List String :=
  match chunk_document text.toList 500 100 (text.toList.length + 1) with
  | ChunkRes.done l => l.map (fun c => String.mk c)
  | _ => []

/-- The snippets list accumulated by build_index's nested append loop. -/
def snippetsOf (docs : List (String × String)) : List String :=
  docs.flatMap (fun d => chunksOf d.2)

/-- The source_ids list accumulated in lockstep with snippetsOf. -/
def sourceIdsOf (docs : List (String × String)) : List String :=
  docs.flatMap (fun d => (chunksOf d.2).map (fun _ => d.1))

/-- The state _build_index leaves when no snippets were generated:
a fresh unfitted vectorizer, empty snippet/source lists, no matrix. -/
def emptyIdx {V M Q : Type} (lib : SkLib V M Q) : EngineState V M :=
  ⟨some lib.newVectorizer, some [], some [], none⟩

/-- All four globals None: the module state before any build. -/
def initState {V M : Type} : EngineState V M :=
  ⟨none, none, none, none⟩

/-- _build_index: load + chunk the corpus, then either record the
explicitly empty index (zero snippets) or fit the vectorizer; a failure
of fit_transform propagates as an exception. -/
def build_index {V M Q : Type} (lib : SkLib V M Q)
    (docs : List (String × String)) : Except Unit (EngineState V M) :=
  if (snippetsOf docs).isEmpty then
    Except.ok (emptyIdx lib)
  else
    match lib.fitTransform (snippetsOf docs) with
    | Except.error e => Except.error e
    | Except.ok (v, m) =>
      Except.ok ⟨some v, some (snippetsOf docs), some (sourceIdsOf docs), some m⟩

/-- The rebuild guard of _ensure_index:
_vectorizer is None or _tfidf_matrix is None. -/
def needsBuild {V M : Type} (st : EngineState V M) : Bool :=
  st.vectorizer.isNone || st.tfidfMatrix.isNone

/-- _ensure_index: run _build_index exactly when the guard holds. -/
def ensure_index {V M Q : Type} (lib : SkLib V M Q)
    (docs : List (String × String)) (st : EngineState V M) :
    Except Unit (EngineState V M) :=
  if needsBuild st then build_index lib docs else Except.ok st

/-- retrieve(customer_message): ensure the index (outside the try block,
so a build failure propagates), return [] when the index is empty or
absent, and otherwise run the try block, in which any library failure is
caught and converted to []. Returns the post-call global state together
with the result list. -/
def retrieve {V M Q : Type} (lib : SkLib V M Q) (docs : List (String × String))
    (st : EngineState V M) (query : String) :
    Except Unit (EngineState V M × List (List (String × String))) :=
  match ensure_index lib docs st with
  | Except.error e => Except.error e
  | Except.ok st2 =>
    if (st2.snippets.getD []).isEmpty || st2.vectorizer.isNone || st2.tfidfMatrix.isNone then
      Except.ok (st2, [])
    else
      match st2.vectorizer, st2.tfidfMatrix with
      | some v, some m =>
        match lib.transform v query with
        | Except.error _ => Except.ok (st2, [])
        | Except.ok qv =>
          match lib.cosineSim qv m with
          | Except.error _ => Except.ok (st2, [])
          | Except.ok sims =>
            Except.ok (st2, buildResults sims (st2.sourceIds.getD []) (st2.snippets.getD []))
      | _, _ => Except.ok (st2, [])

/-- A trivial concrete instantiation of the library surface (used to
evaluate the engine at concrete inputs): unit vectorizer and query
vectors, one unit row per fitted snippet, constant similarity 1. -/
def trivLib : SkLib Unit Unit Unit where
  newVectorizer := ()
  fitTransform sn := Except.ok ((), sn.map (fun _ => ()))
  transform _ _ := Except.ok ()
  cosineSim _ m := Except.ok (m.map (fun _ => (1 : ℚ)))

/-- A library whose fit_transform raises on every corpus (as sklearn's
TfidfVectorizer does, e.g. with ValueError when every token of every
snippet is an English stop word, leaving the vocabulary empty). -/
def failFitLib : SkLib Unit Unit Unit where
  newVectorizer := ()
  fitTransform _ := Except.error ()
  transform _ _ := Except.ok ()
  cosineSim _ m := Except.ok (m.map (fun _ => (1 : ℚ)))

/-! ## Chunker lemmas -/

lemma mem_rangeDownAux {i : Int} :
    ∀ {n : Nat} {a : Int}, i ∈ rangeDownAux a n → a - n < i ∧ i ≤ a := by
  intro n
  induction n with
  | zero => intro a h; simp [rangeDownAux] at h
  | succ m ih =>
    intro a h
    simp only [rangeDownAux, List.mem_cons] at h
    rcases h with rfl | h
    · omega
    · have := ih h
      omega

lemma mem_rangeDown {a b i : Int} (h : i ∈ rangeDown a b) : b < i ∧ i ≤ a := by
  unfold rangeDown at h
  have := mem_rangeDownAux h
  omega

lemma pyGet_isSome {s : List Char} {i : Int} (h0 : 0 ≤ i)
    (h1 : i < (s.length : Int)) : ∃ c, pyGet s i = some c := by
  unfold pyGet
  have hne : ¬ i < 0 := by omega
  simp only [hne, if_false, if_pos h0]
  have hlt : i.toNat < s.length := by omega
  exact ⟨s.get ⟨i.toNat, hlt⟩, List.get?_eq_get hlt⟩

lemma findBreak_some {text : List Char} :
    ∀ {L : List Int}, (∀ i ∈ L, 0 ≤ i ∧ i < (text.length : Int)) →
      ∃ r, findBreak text L = some r := by
  intro L
  induction L with
  | nil => exact fun _ => ⟨none, rfl⟩
  | cons i rest ih =>
    intro h
    obtain ⟨c, hc⟩ := pyGet_isSome (h i (by simp)).1 (h i (by simp)).2
    simp only [findBreak, hc]
    by_cases hb : isBoundaryChar c
    · exact ⟨some i, by simp [hb]⟩
    · obtain ⟨r, hr⟩ := ih (fun j hj => h j (by simp [hj]))
      exact ⟨r, by simp [hb, hr]⟩

lemma findBreak_mem {text : List Char} :
    ∀ {L : List Int} {i : Int}, findBreak text L = some (some i) → i ∈ L := by
  intro L
  induction L with
  | nil => intro i h; simp [findBreak] at h
  | cons j rest ih =>
    intro i h
    simp only [findBreak] at h
    cases hg : pyGet text j with
    | none => rw [hg] at h; exact absurd h (by simp)
    | some c =>
      rw [hg] at h
      by_cases hb : isBoundaryChar c
      · simp [hb] at h; simp [h]
      · simp only [hb, if_false] at h
        exact List.mem_cons_of_mem _ (ih h)

lemma length_pyStrip_le (s : List Char) : (pyStrip s).length ≤ s.length := by
  unfold pyStrip
  calc ((s.dropWhile isPySpace).reverse.dropWhile isPySpace).reverse.length
      = ((s.dropWhile isPySpace).reverse.dropWhile isPySpace).length := by
        rw [List.length_reverse]
    _ ≤ (s.dropWhile isPySpace).reverse.length := (List.dropWhile_sublist _).length_le
    _ = (s.dropWhile isPySpace).length := by rw [List.length_reverse]
    _ ≤ s.length := (List.dropWhile_sublist _).length_le

lemma length_pySlice_le (s : List Char) (i j : Int) (h0 : 0 ≤ i) (hij : i ≤ j) :
    ((pySlice s i j).length : Int) ≤ j - i := by
  unfold pySlice pySliceIdx
  have hne : ¬ i < 0 := by omega
  have hnej : ¬ j < 0 := by omega
  simp only [hne, hnej, if_false, List.length_drop, List.length_take]
  obtain ⟨a, rfl⟩ := Int.eq_ofNat_of_zero_le h0
  obtain ⟨b, rfl⟩ := Int.eq_ofNat_of_zero_le (le_trans h0 hij)
  simp only [Int.toNat_natCast, Nat.min_def]
  split_ifs <;> omega

lemma chunkStep_progress (text : List Char) (cs ov : Nat) (start : Int)
    (h1 : ov + 1 ≤ cs)
    (h2 : (ov : Int) ≤ max ((cs / 2 : Nat) : Int) ((cs : Int) - 100) + 1)
    (hs : 0 ≤ start) :
    ∃ chunk next, chunkStep text cs ov start = some (chunk, next) ∧
      start + 1 ≤ next ∧ chunk.length ≤ cs + 1 := by
  unfold chunkStep
  by_cases hend : start + (cs : Int) < (text.length : Int)
  · rw [if_pos hend]
    have hrange : ∀ i ∈ rangeDown (start + (cs : Int))
        (max (start + ((cs / 2 : Nat) : Int)) (start + (cs : Int) - 100)),
        0 ≤ i ∧ i < (text.length : Int) := by
      intro i hi
      have hm := mem_rangeDown hi
      constructor
      · have : start + ((cs / 2 : Nat) : Int) ≤
            max (start + ((cs / 2 : Nat) : Int)) (start + (cs : Int) - 100) :=
          le_max_left _ _
        omega
      · omega
    obtain ⟨r, hr⟩ := findBreak_some hrange
    rw [hr]
    cases r with
    | none =>
      refine ⟨_, _, rfl, by omega, ?_⟩
      have hsl := length_pySlice_le text start (start + (cs : Int)) hs (by omega)
      have hst := length_pyStrip_le (pySlice text start (start + (cs : Int)))
      omega
    | some i =>
      have hiM := mem_rangeDown (findBreak_mem hr)
      have hmax : start + ((cs / 2 : Nat) : Int) ≤
          max (start + ((cs / 2 : Nat) : Int)) (start + (cs : Int) - 100) :=
        le_max_left _ _
      refine ⟨_, _, rfl, ?_, ?_⟩
      · omega
      · have hsl := length_pySlice_le text start (i + 1) hs (by omega)
        have hst := length_pyStrip_le (pySlice text start (i + 1))
        omega
  · rw [if_neg hend]
    refine ⟨_, _, rfl, by omega, ?_⟩
    have hsl := length_pySlice_le text start (start + (cs : Int)) hs (by omega)
    have hst := length_pyStrip_le (pySlice text start (start + (cs : Int)))
    omega

lemma chunkAux_done (text : List Char) (cs ov : Nat)
    (h1 : ov + 1 ≤ cs)
    (h2 : (ov : Int) ≤ max ((cs / 2 : Nat) : Int) ((cs : Int) - 100) + 1) :
    ∀ (fuel : Nat) (start : Int) (acc : List (List Char)),
      0 ≤ start → (text.length : Int) ≤ start + fuel →
      (∀ c ∈ acc, c.length ≤ cs + 1) →
      ∃ l, chunkAux text cs ov fuel start acc = ChunkRes.done l ∧
        ∀ c ∈ l, c.length ≤ cs + 1 := by
  intro fuel
  induction fuel with
  | zero =>
    intro start acc h0 hf hacc
    refine ⟨acc, ?_, hacc⟩
    have : ¬ start < (text.length : Int) := by omega
    simp [chunkAux, this]
  | succ f ih =>
    intro start acc h0 hf hacc
    by_cases hlt : start < (text.length : Int)
    · obtain ⟨chunk, next, hstep, hnext, hlen⟩ := chunkStep_progress text cs ov start h1 h2 h0
      have heq : chunkAux text cs ov (f + 1) start acc =
          chunkAux text cs ov f next (if chunk.isEmpty then acc else acc ++ [chunk]) := by
        simp only [chunkAux, if_pos hlt, hstep]
      rw [heq]
      apply ih next _ (by omega) (by push_cast at hf ⊢; omega)
      intro c hc
      by_cases hce : chunk.isEmpty
      · rw [if_pos hce] at hc; exact hacc c hc
      · rw [if_neg hce] at hc
        rcases List.mem_append.mp hc with h | h
        · exact hacc c h
        · simp at h; subst h; exact hlen
    · exact ⟨acc, by simp [chunkAux, hlt], hacc⟩

lemma chunk_document_safe (text : List Char) (cs ov : Nat)
    (h1 : ov + 1 ≤ cs)
    (h2 : (ov : Int) ≤ max ((cs / 2 : Nat) : Int) ((cs : Int) - 100) + 1) :
    ∃ l, chunk_document text cs ov (text.length + 1) = ChunkRes.done l ∧
      (∀ c ∈ l, c.length ≤ cs + 1) ∧ (text.length ≤ cs → l = [text]) := by
  unfold chunk_document
  by_cases h : text.length ≤ cs
  · rw [if_pos h]
    refine ⟨[text], rfl, ?_, fun _ => rfl⟩
    intro c hc
    simp at hc
    subst hc
    omega
  · rw [if_neg h]
    obtain ⟨l, hl, hb⟩ :=
      chunkAux_done text cs ov h1 h2 (text.length + 1) 0 [] (by omega) (by push_cast; omega) (by simp)
    exact ⟨l, hl, hb, fun hc => absurd hc h⟩

lemma chunkAux_aaa_diverges : ∀ (fuel : Nat) (acc : List (List Char)),
    chunkAux (String.toList "aaa") 2 2 fuel 0 acc = ChunkRes.fuelOut := by
  intro fuel
  induction fuel with
  | zero =>
    intro acc
    simp [chunkAux]
  | succ f ih =>
    intro acc
    have hstep : chunkStep (String.toList "aaa") 2 2 0 = some (('a' :: 'a' :: []), 0) := by
      decide
    have heq : chunkAux (String.toList "aaa") 2 2 (f + 1) 0 acc =
        chunkAux (String.toList "aaa") 2 2 f 0 (acc ++ [('a' :: 'a' :: [])]) := by
      simp only [chunkAux, hstep]
      norm_num
    rw [heq]
    exact ih _

/-- C4 counterexample: with chunk_size = 2 and overlap = 2 (overlap equal
to the chunk size, an allowed configuration under the claim) on the
document "aaa", chunk_document never terminates: the loop re-enters with
start = 0 forever, so every fuel amount is exhausted. This refutes the
claim that chunk_document terminates for every chunk_size > 0 and
overlap >= 0. -/
theorem c4_counterexample : chunkDocDiverges (String.toList "aaa") 2 2 := by
  intro fuel
  unfold chunk_document
  rw [if_neg (by decide)]
  exact chunkAux_aaa_diverges fuel []

/-- C4 (amended): chunk_document terminates without crashing for every
input text whenever overlap < chunk_size and additionally
overlap <= max(chunk_size / 2, chunk_size - 100) + 1 (both hold for the
default configuration 500 / 100): with fuel len(text) + 1 the loop
returns normally, and a document no longer than the chunk size (in
particular the empty document) yields exactly the one chunk [text]. For
overlap >= chunk_size the loop can run forever (see the
counterexample). -/
theorem c4_chunk_document_terminates (text : List Char) (cs ov : Nat)
    (h1 : ov + 1 ≤ cs)
    (h2 : (ov : Int) ≤ max ((cs / 2 : Nat) : Int) ((cs : Int) - 100) + 1) :
    ∃ l, chunk_document text cs ov (text.length + 1) = ChunkRes.done l ∧
      (text.length ≤ cs → l = [text]) := by
  obtain ⟨l, hl, _, hsingle⟩ := chunk_document_safe text cs ov h1 h2
  exact ⟨l, hl, hsingle⟩

/-- C4 witness: the amended termination theorem applied at a concrete
degenerate-but-allowed configuration (chunk_size 2, overlap 1, text
"aaaaa"). -/
theorem c4_chunk_document_terminates_witness :
    ∃ l, chunk_document (String.toList "aaaaa") 2 1
        ((String.toList "aaaaa").length + 1) = ChunkRes.done l ∧
      ((String.toList "aaaaa").length ≤ 2 → l = [String.toList "aaaaa"]) :=
  c4_chunk_document_terminates (String.toList "aaaaa") 2 1 (by decide) (by decide)

/-- C6 counterexample: for the document " a " (length 3, at most the
chunk size) chunk_document returns the single chunk " a " as-is, which
differs from the trimmed document "a"; the claim that the returned chunk
equals the trimmed document text is false. -/
theorem c6_counterexample :
    chunk_document (String.toList " a ") 500 100 0 =
        ChunkRes.done [String.toList " a "] ∧
      pyStrip (String.toList " a ") ≠ String.toList " a " := by
  constructor
  · rfl
  · decide

/-- C6 (amended): for every document text whose length is at most the
chunk size, chunk_document returns exactly one chunk, and that chunk is
the document text unchanged (untrimmed; whole-document trimming happens
in the loader, not in chunk_document). -/
theorem c6_single_chunk_untrimmed (text : List Char) (cs ov fuel : Nat)
    (h : text.length ≤ cs) :
    chunk_document text cs ov fuel = ChunkRes.done [text] := by
  unfold chunk_document
  rw [if_pos h]

/-- C6 witness: the amended single-chunk theorem at a concrete short
document. -/
theorem c6_single_chunk_untrimmed_witness :
    chunk_document (String.toList "We issue refunds within 5 business days.")
        500 100 0 =
      ChunkRes.done [String.toList "We issue refunds within 5 business days."] :=
  c6_single_chunk_untrimmed _ 500 100 0 (by decide)

/-- C10: in the multi-chunk path with the default configuration
(chunk_size 500, overlap 100), the backward boundary scan - which starts
at index end = start + chunk_size itself and runs only under the guard
end < len(text) - never accesses an out-of-range character index (the
run returns done, never the crash outcome that an IndexError would
produce), and every emitted chunk fits in an un-trimmed span of at most
chunk_size + 1 = 501 characters. -/
theorem c10_scan_in_range_span_bounded (text : List Char) :
    ∃ l, chunk_document text 500 100 (text.length + 1) = ChunkRes.done l ∧
      ∀ c ∈ l, c.length ≤ 501 := by
  obtain ⟨l, hl, hb, _⟩ :=
    chunk_document_safe text 500 100 (by norm_num) (by norm_num)
  exact ⟨l, hl, hb⟩

/-- C10 witness: the scan-safety theorem at a concrete 1000-character
document (forcing the multi-chunk path). -/
theorem c10_scan_in_range_span_bounded_witness :
    ∃ l, chunk_document (List.replicate 1000 'a') 500 100
        ((List.replicate 1000 'a').length + 1) = ChunkRes.done l ∧
      ∀ c ∈ l, c.length ≤ 501 :=
  c10_scan_in_range_span_bounded (List.replicate 1000 'a')

/-! ## Selection lemmas -/

lemma argsort_perm (sims : List ℚ) :
    (argsortAsc sims).Perm (List.range sims.length) :=
  List.perm_insertionSort _ _

lemma argsort_sorted (sims : List ℚ) :
    List.Sorted (simLE sims) (argsortAsc sims) :=
  List.sorted_insertionSort _ _

lemma argsort_nodup (sims : List ℚ) : (argsortAsc sims).Nodup :=
  (argsort_perm sims).symm.nodup (List.nodup_range _)

lemma mem_argsort {sims : List ℚ} {i : Nat} :
    i ∈ argsortAsc sims ↔ i < sims.length :=
  ((argsort_perm sims).mem_iff).trans List.mem_range

lemma topIndices_sublist_argsort (sims : List ℚ) :
    ∀ i ∈ topIndices sims, i ∈ argsortAsc sims := by
  intro i hi
  unfold topIndices lastK at hi
  rw [List.mem_reverse] at hi
  exact (List.drop_sublist _ _).mem hi

lemma mem_topIndices_lt {sims : List ℚ} {i : Nat} (h : i ∈ topIndices sims) :
    i < sims.length :=
  mem_argsort.mp (topIndices_sublist_argsort sims i h)

lemma topIndices_length_le (sims : List ℚ) : (topIndices sims).length ≤ 3 := by
  unfold topIndices lastK
  rw [List.length_reverse, List.length_drop]
  omega

lemma topIndices_pairwise_ge (sims : List ℚ) :
    List.Pairwise (fun a b => simLE sims b a) (topIndices sims) := by
  unfold topIndices
  rw [List.pairwise_reverse]
  exact List.Pairwise.sublist (List.drop_sublist _ _) (argsort_sorted sims)

lemma topIndices_nodup (sims : List ℚ) : (topIndices sims).Nodup := by
  unfold topIndices
  rw [List.nodup_reverse]
  exact (List.drop_sublist _ _).nodup (argsort_nodup sims)

lemma keptIndices_sublist_top (sims : List ℚ) :
    (keptIndices sims).Sublist (topIndices sims) :=
  List.filter_sublist _

lemma mem_keptIndices {sims : List ℚ} {i : Nat} :
    i ∈ keptIndices sims ↔ i ∈ topIndices sims ∧ 0 < sims.getD i 0 := by
  unfold keptIndices
  rw [List.mem_filter]
  simp

lemma tie_promoted {sims : List ℚ} {i j : Nat} (hij : i < j)
    (heq : sims.getD i 0 = sims.getD j 0) (hjlen : j < sims.length)
    (hi : i ∈ topIndices sims) : j ∈ topIndices sims := by
  unfold topIndices lastK at hi ⊢
  rw [List.mem_reverse] at hi ⊢
  by_cases hjd : j ∈ (argsortAsc sims).drop ((argsortAsc sims).length - 3)
  · exact hjd
  · exfalso
    have hj : j ∈ argsortAsc sims := mem_argsort.mpr hjlen
    have hjt : j ∈ (argsortAsc sims).take ((argsortAsc sims).length - 3) := by
      rcases List.mem_append.mp
          (by rw [List.take_append_drop]; exact hj :
            j ∈ (argsortAsc sims).take ((argsortAsc sims).length - 3) ++
              (argsortAsc sims).drop ((argsortAsc sims).length - 3)) with h | h
      · exact h
      · exact absurd h hjd
    have hpw : List.Pairwise (simLE sims)
        ((argsortAsc sims).take ((argsortAsc sims).length - 3) ++
          (argsortAsc sims).drop ((argsortAsc sims).length - 3)) := by
      rw [List.take_append_drop]
      exact argsort_sorted sims
    have hcross := (List.pairwise_append.mp hpw).2.2 j hjt i hi
    rcases hcross with hlt | ⟨_, hle⟩
    · rw [heq] at hlt
      exact lt_irrefl _ hlt
    · omega

lemma buildResults_length_le (sims : List ℚ) (ids snips : List String) :
    (buildResults sims ids snips).length ≤ 3 := by
  unfold buildResults
  rw [List.length_map]
  exact le_trans (keptIndices_sublist_top sims).length_le (topIndices_length_le sims)

lemma retrieve_ok_shape {V M Q : Type} {lib : SkLib V M Q}
    {docs : List (String × String)} {st stOut : EngineState V M} {q : String}
    {res : List (List (String × String))}
    (h : retrieve lib docs st q = Except.ok (stOut, res)) :
    res = [] ∨ ∃ sims,
      res = buildResults sims (stOut.sourceIds.getD []) (stOut.snippets.getD []) := by
  unfold retrieve at h
  split at h
  · exact absurd h (by simp)
  · split at h
    · simp only [Except.ok.injEq, Prod.mk.injEq] at h
      exact Or.inl h.2.symm
    · split at h
      · split at h
        · simp only [Except.ok.injEq, Prod.mk.injEq] at h
          exact Or.inl h.2.symm
        · split at h
          · simp only [Except.ok.injEq, Prod.mk.injEq] at h
            exact Or.inl h.2.symm
          · simp only [Except.ok.injEq, Prod.mk.injEq] at h
            exact Or.inr ⟨_, h.1 ▸ h.2.symm⟩
      · simp only [Except.ok.injEq, Prod.mk.injEq] at h
        exact Or.inl h.2.symm

/-- C2 counterexample: corpus of two one-character documents "x" and "y"
whose chunks receive the equal similarity score 1; retrieve returns two
results whose underlying scores are equal, so the returned sequence is
not strictly descending ("no two returned results carry an equal score"
fails). -/
theorem c2_counterexample :
    retrieve trivLib [("a", "x"), ("b", "y")] initState "q" =
      Except.ok (⟨some (), some ["x", "y"], some ["a", "b"], some [(), ()]⟩,
        [mkResult "b" "y", mkResult "a" "x"]) ∧
    keptIndices [(1:ℚ), 1] = [1, 0] ∧
    [(1:ℚ), 1].getD 1 0 = [(1:ℚ), 1].getD 0 0 := by
  refine ⟨by rfl, by decide, by decide⟩

/-- C2 (amended): every successful retrieve call returns between 0 and 3
results; for every similarity vector, the selected-and-kept indices all
carry a strictly positive score, and their scores are ordered
non-increasingly (descending, with equal scores possible among returned
results). -/
theorem c2_top3_positive_desc {V M Q : Type} (lib : SkLib V M Q)
    (docs : List (String × String)) (st : EngineState V M) (q : String)
    (stOut : EngineState V M) (res : List (List (String × String)))
    (h : retrieve lib docs st q = Except.ok (stOut, res)) (sims : List ℚ) :
    res.length ≤ 3 ∧
    (∀ idx ∈ keptIndices sims, 0 < sims.getD idx 0) ∧
    List.Pairwise (fun a b => sims.getD b 0 ≤ sims.getD a 0) (keptIndices sims) := by
  refine ⟨?_, ?_, ?_⟩
  · rcases retrieve_ok_shape h with rfl | ⟨s, rfl⟩
    · simp
    · exact buildResults_length_le _ _ _
  · intro idx hidx
    exact (mem_keptIndices.mp hidx).2
  · have hpw := List.Pairwise.sublist (keptIndices_sublist_top sims)
      (topIndices_pairwise_ge sims)
    refine hpw.imp ?_
    intro a b hba
    rcases hba with hlt | ⟨heq, _⟩
    · exact le_of_lt hlt
    · exact le_of_eq heq

/-- C2 witness: the amended theorem applied to a concrete successful
call (two snippets, scores 1 and 1). -/
theorem c2_top3_positive_desc_witness :
    ([mkResult "b" "y", mkResult "a" "x"] : List (List (String × String))).length ≤ 3 :=
  (c2_top3_positive_desc trivLib [("a", "x"), ("b", "y")] initState "q"
    ⟨some (), some ["x", "y"], some ["a", "b"], some [(), ()]⟩
    [mkResult "b" "y", mkResult "a" "x"] (by rfl) []).1

/-- C7 counterexample: a result produced by retrieve's loop holds exactly
the two keys source_id and excerpt; there is no score entry, refuting
the claim that each QueryResult carries a score field. -/
theorem c7_counterexample :
    buildResults [(1:ℚ)] ["refunds"] ["We issue refunds."] =
      [[("source_id", "refunds"), ("excerpt", "We issue refunds.")]] ∧
    List.lookup "score"
      [("source_id", "refunds"), ("excerpt", "We issue refunds.")] = none := by
  refine ⟨by decide, by decide⟩

/-- C7 (amended): every element of a result of retrieve is the dict of a
surviving (positive-score, top-3) chunk index, carrying exactly the two
fields source_id (the chunk's owning source id) and excerpt (the full
chunk text); the similarity score is used for filtering and ordering but
is not included in the result. -/
theorem c7_result_fields (sims : List ℚ) (ids snips : List String)
    (r : List (String × String)) (h : r ∈ buildResults sims ids snips) :
    ∃ idx ∈ keptIndices sims,
      r = mkResult (ids.getD idx "") (snips.getD idx "") ∧
      r.map Prod.fst = ["source_id", "excerpt"] ∧
      List.lookup "score" r = none := by
  unfold buildResults at h
  obtain ⟨idx, hidx, rfl⟩ := List.mem_map.mp h
  exact ⟨idx, hidx, rfl, by simp [mkResult], by simp [mkResult, List.lookup]⟩

/-- C7 witness: the amended theorem at a concrete one-snippet corpus. -/
theorem c7_result_fields_witness :
    ∃ idx ∈ keptIndices [(1:ℚ)],
      mkResult "refunds" "We issue refunds." =
        mkResult (["refunds"].getD idx "") (["We issue refunds."].getD idx "") ∧
      (mkResult "refunds" "We issue refunds.").map Prod.fst =
        ["source_id", "excerpt"] ∧
      List.lookup "score" (mkResult "refunds" "We issue refunds.") = none :=
  c7_result_fields [(1:ℚ)] ["refunds"] ["We issue refunds."]
    (mkResult "refunds" "We issue refunds.") (by decide)

/-- C8 counterexample: four chunks with equal positive scores; the top-3
selection keeps indices 3, 2, 1 in that order: the earliest tied chunk 0
is dropped (the later chunk wins the boundary tie) and among returned
equal-score results the later-positioned chunk appears first - both
contrary to the claim that the earlier chunk wins. -/
theorem c8_counterexample :
    keptIndices [(1:ℚ), 1, 1, 1] = [3, 2, 1] ∧
    (0 : Nat) ∉ keptIndices [(1:ℚ), 1, 1, 1] ∧
    [(1:ℚ), 1, 1, 1].getD 0 0 = [(1:ℚ), 1, 1, 1].getD 3 0 := by
  refine ⟨by decide, by decide, by decide⟩

/-- C8 (amended): ties are broken by original chunk position with the
later chunk winning (argsort ascending stable, take last 3, reverse):
the selected indices are strictly decreasing lexicographically by
(score, position) - on equal scores the later-positioned chunk appears
first - and whenever an earlier chunk of a tied pair is selected, the
later one is selected as well (so at the top-3 boundary the later chunk
is preferred). numpy argsort is modelled as the stable ascending sort,
which matches numpy's behaviour on arrays this small. -/
theorem c8_tie_break_later_wins (sims : List ℚ) :
    List.Pairwise (fun a b => sims.getD b 0 < sims.getD a 0 ∨
      (sims.getD a 0 = sims.getD b 0 ∧ b < a)) (topIndices sims) ∧
    ∀ i j, i < j → sims.getD i 0 = sims.getD j 0 → j < sims.length →
      i ∈ topIndices sims → j ∈ topIndices sims := by
  constructor
  · have h1 := topIndices_pairwise_ge sims
    have h2 := topIndices_nodup sims
    refine (h1.and h2).imp ?_
    intro a b hab
    rcases hab with ⟨hlt | ⟨heq, hle⟩, hne⟩
    · exact Or.inl hlt
    · exact Or.inr ⟨heq.symm, lt_of_le_of_ne hle (Ne.symm hne)⟩
  · intro i j hij heq hjlen hi
    exact tie_promoted hij heq hjlen hi

/-- C8 witness: the amended theorem at the concrete tied vector
[1, 1]: chunk 0 is selected, so the later tied chunk 1 is too. -/
theorem c8_tie_break_later_wins_witness :
    (1 : Nat) ∈ topIndices [(1:ℚ), 1] :=
  (c8_tie_break_later_wins [(1:ℚ), 1]).2 0 1 (by decide) (by decide) (by decide)
    (by decide)

lemma retrieve_ok_of_ensure {V M Q : Type} {lib : SkLib V M Q}
    {docs : List (String × String)} {st st2 : EngineState V M} (q : String)
    (h : ensure_index lib docs st = Except.ok st2) :
    ∃ res, retrieve lib docs st q = Except.ok (st2, res) := by
  unfold retrieve
  rw [h]
  split
  · rename_i e heq
    exact absurd heq (by simp)
  · rename_i st3 heq
    injection heq with h32
    subst h32
    split
    · exact ⟨[], rfl⟩
    · split
      · split
        · exact ⟨[], rfl⟩
        · split
          · exact ⟨[], rfl⟩
          · exact ⟨_, rfl⟩
      · exact ⟨[], rfl⟩

/-- C1 counterexample: when the lazy index build fails (here: a corpus
with one non-empty chunk whose vectorizer fit raises, as sklearn's
TfidfVectorizer.fit_transform does with ValueError on an all-stop-word
vocabulary), the exception escapes retrieve, because _ensure_index runs
before the try block. This refutes "retrieve never propagates an
exception to its caller, including when the lazy index build fails". -/
theorem c1_counterexample :
    retrieve failFitLib [("doc", "hello")] initState "q" = Except.error () := by
  rfl

/-- C1 (amended): retrieve returns normally (never raises) whenever the
index build is not the failing step: if the index is already built
(guard false) or _build_index succeeds, retrieve returns a result list -
in particular every failure of query vectorization or similarity
computation inside the try block is caught and converted to a normal
return. Only a failure of the lazy build itself, which runs before the
try block, propagates. -/
theorem c1_no_raise_when_build_ok {V M Q : Type} (lib : SkLib V M Q)
    (docs : List (String × String)) (st : EngineState V M) (q : String)
    (h : needsBuild st = false ∨ ∃ st2, build_index lib docs = Except.ok st2) :
    ∃ stOut res, retrieve lib docs st q = Except.ok (stOut, res) := by
  by_cases hn : needsBuild st
  · rcases h with h | ⟨st2, h⟩
    · rw [hn] at h; exact absurd h (by simp)
    · have he : ensure_index lib docs st = Except.ok st2 := by
        unfold ensure_index
        rw [hn, if_pos rfl]
        exact h
      obtain ⟨res, hres⟩ := retrieve_ok_of_ensure q he
      exact ⟨st2, res, hres⟩
  · have he : ensure_index lib docs st = Except.ok st := by
      unfold ensure_index
      rw [if_neg hn]
    obtain ⟨res, hres⟩ := retrieve_ok_of_ensure q he
    exact ⟨st, res, hres⟩

/-- C1 witness: the amended theorem at a concrete corpus whose build
succeeds. -/
theorem c1_no_raise_when_build_ok_witness :
    ∃ stOut res, retrieve trivLib [("a", "x")] initState "q" =
      Except.ok (stOut, res) :=
  c1_no_raise_when_build_ok trivLib [("a", "x")] initState "q"
    (Or.inr ⟨⟨some (), some ["x"], some ["a"], some [()]⟩, by rfl⟩)

/-- C3: for a corpus yielding zero chunks, _build_index produces the
explicitly empty index (fresh vectorizer, empty snippet and source-id
lists, no matrix); the first retrieve and every retrieve thereafter
(from the state the first call left) return the empty list and never
raise. -/
theorem c3_zero_chunks_empty_index {V M Q : Type} (lib : SkLib V M Q)
    (docs : List (String × String)) (q q2 : String)
    (h : snippetsOf docs = []) :
    build_index lib docs = Except.ok (emptyIdx lib) ∧
    retrieve lib docs initState q = Except.ok (emptyIdx lib, []) ∧
    retrieve lib docs (emptyIdx lib) q2 = Except.ok (emptyIdx lib, []) := by
  have hb : build_index lib docs = Except.ok (emptyIdx lib) := by
    unfold build_index
    rw [if_pos (List.isEmpty_iff.mpr h)]
  have he1 : ensure_index lib docs (initState : EngineState V M) =
      Except.ok (emptyIdx lib) := by
    unfold ensure_index
    exact hb
  have he2 : ensure_index lib docs (emptyIdx lib) = Except.ok (emptyIdx lib) := by
    unfold ensure_index
    exact hb
  refine ⟨hb, ?_, ?_⟩
  · unfold retrieve
    rw [he1]
    rfl
  · unfold retrieve
    rw [he2]
    rfl

/-- C3 witness: the theorem at the concrete empty corpus. -/
theorem c3_zero_chunks_empty_index_witness :
    build_index trivLib [] = Except.ok (emptyIdx trivLib) ∧
    retrieve trivLib [] initState "anything" = Except.ok (emptyIdx trivLib, []) ∧
    retrieve trivLib [] (emptyIdx trivLib) "other" =
      Except.ok (emptyIdx trivLib, []) :=
  c3_zero_chunks_empty_index trivLib [] "anything" "other" rfl

/-- C5 counterexample: on a zero-chunk corpus the first retrieve leaves
the state produced by _build_index with _tfidf_matrix = None, so the
rebuild guard of _ensure_index still holds and the next call runs
_build_index (and re-reads the corpus directory) again - refuting
"any call after the first reuses the cached index and does not run
_build_index again, including for a corpus that yields zero chunks". -/
theorem c5_counterexample :
    retrieve trivLib [] initState "q" = Except.ok (emptyIdx trivLib, []) ∧
    needsBuild (emptyIdx trivLib) = true ∧
    ensure_index trivLib [] (emptyIdx trivLib) = build_index trivLib [] := by
  refine ⟨by rfl, by rfl, by rfl⟩

/-- C5 (amended): for a corpus yielding at least one chunk whose
vectorizer fit succeeds, the state _build_index produces fails the
rebuild guard, so every later call reuses the cached index: _ensure_index
returns the state unchanged and retrieve runs on it without rebuilding.
For a zero-chunk corpus the matrix stays None and every call re-runs the
(cheap, empty) build. -/
theorem c5_cache_reused_when_nonempty {V M Q : Type} (lib : SkLib V M Q)
    (docs : List (String × String)) (st1 : EngineState V M) (q : String)
    (hne : snippetsOf docs ≠ [])
    (hb : build_index lib docs = Except.ok st1) :
    needsBuild st1 = false ∧ ensure_index lib docs st1 = Except.ok st1 ∧
    ∃ res, retrieve lib docs st1 q = Except.ok (st1, res) := by
  unfold build_index at hb
  rw [if_neg (by simp [List.isEmpty_eq_false, hne])] at hb
  cases hf : lib.fitTransform (snippetsOf docs) with
  | error e => rw [hf] at hb; exact absurd hb (by simp)
  | ok vm =>
    obtain ⟨v, m⟩ := vm
    rw [hf] at hb
    simp only [Except.ok.injEq] at hb
    subst hb
    have hguard : needsBuild
        (⟨some v, some (snippetsOf docs), some (sourceIdsOf docs), some m⟩ :
          EngineState V M) = false := rfl
    have he : ensure_index lib docs
        (⟨some v, some (snippetsOf docs), some (sourceIdsOf docs), some m⟩ :
          EngineState V M) = Except.ok
        ⟨some v, some (snippetsOf docs), some (sourceIdsOf docs), some m⟩ := by
      unfold ensure_index
      rw [hguard]
      rfl
    exact ⟨hguard, he, retrieve_ok_of_ensure q he⟩

/-- C5 witness: the amended theorem at a concrete one-chunk corpus. -/
theorem c5_cache_reused_when_nonempty_witness :
    needsBuild (⟨some (), some ["x"], some ["a"], some [()]⟩ :
      EngineState Unit Unit) = false ∧
    ensure_index trivLib [("a", "x")]
        ⟨some (), some ["x"], some ["a"], some [()]⟩ =
      Except.ok ⟨some (), some ["x"], some ["a"], some [()]⟩ ∧
    ∃ res, retrieve trivLib [("a", "x")]
        ⟨some (), some ["x"], some ["a"], some [()]⟩ "q" =
      Except.ok (⟨some (), some ["x"], some ["a"], some [()]⟩, res) :=
  c5_cache_reused_when_nonempty trivLib [("a", "x")]
    ⟨some (), some ["x"], some ["a"], some [()]⟩ "q" (by decide) (by rfl)

/-! ## Index alignment (C9) -/

/-- The chunk/owner pairs of the corpus in build order: for each document
in order, its chunks each paired with that document's source id. -/
def chunkPairs (docs : List (String × String)) : List (String × String) :=
  docs.flatMap (fun d => (chunksOf d.2).map (fun c => (d.1, c)))

lemma zip_map_const {β : Type} (b : β) :
    ∀ (l : List β), ((l.map (fun _ => b)).zip l) = l.map (fun c => (b, c)) := by
  intro l
  induction l with
  | nil => rfl
  | cons x xs ih => simp only [List.map_cons, List.zip_cons_cons, ih]

lemma length_sourceIdsOf (docs : List (String × String)) :
    (sourceIdsOf docs).length = (snippetsOf docs).length := by
  induction docs with
  | nil => rfl
  | cons d ds ih =>
    simp only [sourceIdsOf, snippetsOf, List.flatMap_cons, List.length_append,
      List.length_map] at *
    omega

lemma length_chunkPairs (docs : List (String × String)) :
    (chunkPairs docs).length = (snippetsOf docs).length := by
  induction docs with
  | nil => rfl
  | cons d ds ih =>
    simp only [chunkPairs, snippetsOf, List.flatMap_cons, List.length_append,
      List.length_map] at *
    omega

lemma zip_ids_snips (docs : List (String × String)) :
    (sourceIdsOf docs).zip (snippetsOf docs) = chunkPairs docs := by
  induction docs with
  | nil => rfl
  | cons d ds ih =>
    unfold sourceIdsOf snippetsOf chunkPairs
    rw [List.flatMap_cons, List.flatMap_cons, List.flatMap_cons]
    rw [List.zip_append (by simp), zip_map_const d.1 (chunksOf d.2)]
    congr 1

/-- C9: after any successful _build_index, the snippet list, the parallel
source-id list and the TF-IDF matrix are aligned: equal lengths (the
matrix row count equals the snippet count, taking as hypothesis the
fit_transform row-per-input contract of the vectorizer, which is
modelled, not in this repository), the i-th source id is the owner of
the i-th snippet (their zip is exactly the per-document chunk/owner pair
list), and consequently every result retrieve builds from a similarity
vector of matching length pairs an excerpt with that excerpt's true
owning source id. -/
theorem c9_parallel_alignment {V M Q : Type} (lib : SkLib V M Q)
    (docs : List (String × String)) (st : EngineState V M)
    (hrows : ∀ sn v m, lib.fitTransform sn = Except.ok (v, m) →
      m.length = sn.length)
    (hb : build_index lib docs = Except.ok st) :
    ∃ ids snips, st.sourceIds = some ids ∧ st.snippets = some snips ∧
      ids.length = snips.length ∧
      ids.zip snips = chunkPairs docs ∧
      (∀ m, st.tfidfMatrix = some m → m.length = snips.length) ∧
      (∀ sims r, sims.length = snips.length →
        r ∈ buildResults sims ids snips →
        ∃ idx, idx < snips.length ∧
          r = mkResult (ids.getD idx "") (snips.getD idx "") ∧
          (ids.getD idx "", snips.getD idx "") ∈ chunkPairs docs) := by
  unfold build_index at hb
  by_cases hemp : (snippetsOf docs).isEmpty
  · rw [if_pos hemp] at hb
    simp only [Except.ok.injEq] at hb
    subst hb
    have hnil : snippetsOf docs = [] := List.isEmpty_iff.mp hemp
    have hpairs : chunkPairs docs = [] := by
      have hlen := length_chunkPairs docs
      rw [hnil] at hlen
      exact List.eq_nil_of_length_eq_zero (by simpa using hlen)
    refine ⟨[], [], rfl, rfl, rfl, by simp [hpairs], ?_, ?_⟩
    · intro m hm
      exact absurd hm (by simp [emptyIdx])
    · intro sims r hlen hr
      exfalso
      unfold buildResults at hr
      obtain ⟨idx, hidx, _⟩ := List.mem_map.mp hr
      have hlt := mem_topIndices_lt (mem_keptIndices.mp hidx).1
      simp only [List.length_nil] at hlen
      omega
  · rw [if_neg hemp] at hb
    cases hf : lib.fitTransform (snippetsOf docs) with
    | error e => rw [hf] at hb; exact absurd hb (by simp)
    | ok vm =>
      obtain ⟨v, m⟩ := vm
      rw [hf] at hb
      simp only [Except.ok.injEq] at hb
      subst hb
      refine ⟨sourceIdsOf docs, snippetsOf docs, rfl, rfl,
        length_sourceIdsOf docs, zip_ids_snips docs, ?_, ?_⟩
      · intro m2 hm2
        simp only [Option.some.injEq] at hm2
        subst hm2
        exact hrows _ _ _ hf
      · intro sims r hlen hr
        unfold buildResults at hr
        obtain ⟨idx, hidx, rfl⟩ := List.mem_map.mp hr
        have hlt : idx < (snippetsOf docs).length := by
          have := mem_topIndices_lt (mem_keptIndices.mp hidx).1
          omega
        have hlti : idx < (sourceIdsOf docs).length := by
          rw [length_sourceIdsOf docs]
          exact hlt
        refine ⟨idx, hlt, rfl, ?_⟩
        rw [← zip_ids_snips docs]
        have hzlen : idx < ((sourceIdsOf docs).zip (snippetsOf docs)).length := by
          rw [List.length_zip]
          exact lt_min hlti hlt
        have hmem := List.getElem_mem hzlen
        rw [List.getElem_zip] at hmem
        rw [List.getD_eq_getElem _ _ hlti, List.getD_eq_getElem _ _ hlt]
        exact hmem

/-- C9 witness: the alignment theorem at a concrete two-document corpus
with the unit library (one matrix row per snippet). -/
theorem c9_parallel_alignment_witness :
    ∃ ids snips,
      (⟨some (), some ["x", "y"], some ["a", "b"], some [(), ()]⟩ :
        EngineState Unit Unit).sourceIds = some ids ∧
      (⟨some (), some ["x", "y"], some ["a", "b"], some [(), ()]⟩ :
        EngineState Unit Unit).snippets = some snips ∧
      ids.length = snips.length ∧
      ids.zip snips = chunkPairs [("a", "x"), ("b", "y")] ∧
      (∀ m, (⟨some (), some ["x", "y"], some ["a", "b"], some [(), ()]⟩ :
        EngineState Unit Unit).tfidfMatrix = some m →
        m.length = snips.length) ∧
      (∀ sims r, sims.length = snips.length →
        r ∈ buildResults sims ids snips →
        ∃ idx, idx < snips.length ∧
          r = mkResult (ids.getD idx "") (snips.getD idx "") ∧
          (ids.getD idx "", snips.getD idx "") ∈
            chunkPairs [("a", "x"), ("b", "y")]) :=
  c9_parallel_alignment trivLib [("a", "x"), ("b", "y")]
    ⟨some (), some ["x", "y"], some ["a", "b"], some [(), ()]⟩
    (fun sn v m h => by
      simp only [trivLib, Except.ok.injEq, Prod.mk.injEq] at h
      rw [← h.2]
      simp)
    (by rfl)
